import Mathlib

/-!
Verification of the `wait-free/ringbuffer` SPSC byte ring buffer
(`src/queue.go`) against its natural-language specification.

The Go code is embedded shallowly:
* Go `uint64` values are `Nat`s; every operation the source performs in
  `uint64` arithmetic is wrapped with an explicit `% 2 ^ 64` (`wrap64`,
  `sub64`).
* Go `int32` headers are `Int`s kept in two's-complement range by explicit
  wrapping (`toInt32`, `wrapI32`, `negI32`); the conversion
  `uint64(someInt32)` sign-extends (`u64OfI32`), exactly as in Go.
* The byte region `q.mem` is a function `Nat → Nat`; `writeMeta`/`readMeta`
  store/load the 4 little-endian bytes of the header through the same byte
  positions the Go pointer cast touches, and `copyBytes`/`readBytes` are the
  payload `copy` and slice read.
* Go panics are explicit: `Pop`'s `panic("unreachable")` branch is the
  `PopResult.panicked` constructor.  (`x % 0` panics in Go; in this model
  `pos` uses Lean's total `%`, and every theorem below either assumes
  `cap > 0` or proves the `% cap` expression is never reached.)
-/

namespace RingBuffer

/-- The modulus of Go's unsigned 64-bit arithmetic. -/
def U64 : Nat := 2 ^ 64

/-- Go unsigned 64-bit wrap-around of a natural number. -/
def wrap64 (n : Nat) : Nat := n % U64

/-- Go unsigned 64-bit subtraction `a - b` (wrap-around on underflow). -/
def sub64 (a b : Nat) : Nat := (wrap64 a + (U64 - wrap64 b)) % U64

/-- Go conversion of an unsigned value to `int32` (two's complement). -/
def toInt32 (n : Nat) : Int :=
  if n % 2 ^ 32 < 2 ^ 31 then ((n % 2 ^ 32 : Nat) : Int)
  else ((n % 2 ^ 32 : Nat) : Int) - 2 ^ 32

/-- Wrap an integer into two's-complement `int32` range. -/
def wrapI32 (z : Int) : Int := (z + 2 ^ 31) % 2 ^ 32 - 2 ^ 31

/-- Go `int32` negation `-x`, which wraps at the minimum value. -/
def negI32 (z : Int) : Int := wrapI32 (-z)

/-- Go conversion `uint64(x)` for an `int32` value `x` (sign extension). -/
def u64OfI32 (z : Int) : Nat := (z % (2 ^ 64 : Int)).toNat

/-- Byte `k` (little endian) of the two's-complement `int32` value `v`,
as stored by `writeMeta`'s 4-byte pointer write. -/
def metaByte (v : Int) (k : Nat) : Nat := (v % (2 ^ 32 : Int)).toNat / 256 ^ k % 256

/-- `q.writeMeta(pos, meta)`: store the 4 header bytes at position `p`. -/
def writeMeta (mem : Nat → Nat) (p : Nat) (meta : Int) : Nat → Nat :=
  fun i =>
    if i = p then metaByte meta 0
    else if i = p + 1 then metaByte meta 1
    else if i = p + 2 then metaByte meta 2
    else if i = p + 3 then metaByte meta 3
    else mem i

/-- `q.readMeta(pos)`: load the 4 header bytes at position `p` as an `int32`. -/
def readMeta (mem : Nat → Nat) (p : Nat) : Int :=
  toInt32 (mem p % 256 + 256 * (mem (p + 1) % 256) +
    256 ^ 2 * (mem (p + 2) % 256) + 256 ^ 3 * (mem (p + 3) % 256))

/-- Go `copy(mem[start : start+len(buf)], buf)`. -/
def copyBytes (mem : Nat → Nat) (start : Nat) (buf : List Nat) : Nat → Nat :=
  fun i => if start ≤ i ∧ i < start + buf.length then buf.getD (i - start) 0 else mem i

/-- Go `mem[start : start+size]`: the `size` bytes beginning at `start`. -/
def readBytes (mem : Nat → Nat) (start size : Nat) : List Nat :=
  (List.range size).map fun i => mem (start + i)

/-- The `Queue` struct of `src/queue.go`.  `memLen` is Go's `len(q.mem)` and
`memCap` the allocated backing capacity `cap(q.mem)`; the region contents are
the function `mem`. -/
structure Queue where
  readPtr : Nat
  writePtr : Nat
  cap : Nat
  memLen : Nat
  memCap : Nat
  mem : Nat → Nat

/-- `NewQueue(cap)`: both cursors 0, region `make([]byte, cap, cap+3)`
(zero-initialized, length `cap`, allocation `cap + 3`). -/
def NewQueue (cap : Nat) : Queue :=
  { readPtr := 0, writePtr := 0, cap := cap,
    memLen := cap, memCap := cap + 3, mem := fun _ => 0 }

/-- `q.IsEmpty()`. -/
def IsEmpty (q : Queue) : Bool := q.readPtr == q.writePtr

/-- `q.pos(ptr) = ptr % q.cap`.  (Go panics when `q.cap = 0`; theorems below
never depend on the `cap = 0` value of this total model.) -/
def pos (q : Queue) (ptr : Nat) : Nat := ptr % q.cap

/-- `q.IsFull(bufSize)` from `src/queue.go` lines 62–85. -/
def IsFull (q : Queue) (bufSize : Nat) : Bool :=
  if sub64 (wrap64 (q.writePtr + 4 + bufSize)) q.readPtr > q.memLen then true
  else
    let cost := wrap64 (bufSize + 4)
    let phyReadPos := pos q q.readPtr
    let phyWritePos := pos q q.writePtr
    if phyReadPos ≤ phyWritePos then
      if wrap64 (phyWritePos + cost) ≤ q.memLen then false
      else if cost ≤ phyReadPos then false
      else true
    else decide (wrap64 (phyWritePos + cost) > phyReadPos)

/-- The tail slack `q.cap - q.pos(writePtr)` consulted by `Push`. -/
def skipLen (q : Queue) : Nat := q.cap - pos q q.writePtr

/-- `Push`'s skip condition: the tail segment is too short for the frame. -/
def pushNeedsSkip (q : Queue) (len : Nat) : Bool := decide (skipLen q < len + 4)

/-- The write pointer `Push` actually uses after the optional skip
(`writePtr += uint64(skip)` where `skip = int32(q.cap - q.pos(writePtr))`). -/
def pushEffPtr (q : Queue) (len : Nat) : Nat :=
  if pushNeedsSkip q len then wrap64 (q.writePtr + u64OfI32 (toInt32 (skipLen q)))
  else q.writePtr

/-- The region after `Push`'s optional skip pseudo-frame header write
(`q.writeMeta(q.pos(writePtr), -skip)`). -/
def pushMem1 (q : Queue) (len : Nat) : Nat → Nat :=
  if pushNeedsSkip q len then
    writeMeta q.mem (pos q q.writePtr) (negI32 (toInt32 (skipLen q)))
  else q.mem

inductive PushResult where
  | full
  | ok (q : Queue)

/-- `q.Push(buf)` from `src/queue.go` lines 103–133. -/
def Push (q : Queue) (buf : List Nat) : PushResult :=
  if IsFull q buf.length then .full
  else
    let wp := pushEffPtr q buf.length
    let m1 := pushMem1 q buf.length
    let m2 := writeMeta m1 (pos q wp) (toInt32 buf.length)
    let m3 := copyBytes m2 (pos q wp + 4) buf
    .ok { q with writePtr := wrap64 (wp + 4 + buf.length), mem := m3 }

/-- The first header `Pop` reads, at `q.pos(q.readPtr)`. -/
def popMetaFst (q : Queue) : Int := readMeta q.mem (pos q q.readPtr)

/-- The reading pointer after `Pop` skips a pseudo-frame
(`readingPtr += uint64(skip)` with `skip = -meta` in `int32`). -/
def popSkipPtr (q : Queue) : Nat :=
  wrap64 (q.readPtr + u64OfI32 (negI32 (popMetaFst q)))

/-- The logical start of the frame `Pop` consumes. -/
def popFrameStart (q : Queue) : Nat :=
  if popMetaFst q < 0 then popSkipPtr q else q.readPtr

/-- The header of the frame `Pop` consumes (re-read after a skip). -/
def popMetaReal (q : Queue) : Int := readMeta q.mem (pos q (popFrameStart q))

/-- `readingPtr` after `Pop` advances past the header. -/
def popDataPtr (q : Queue) : Nat := wrap64 (popFrameStart q + 4)

/-- `dataSize = uint64(meta)` in `Pop` (the header is non-negative there). -/
def popDataSize (q : Queue) : Nat := (popMetaReal q).toNat

inductive PopResult where
  | empty
  | panicked
  | ok (q : Queue) (out : List Nat)

/-- `q.Pop(dst)` from `src/queue.go` lines 136–172.  The `panicked` result is
the `panic("unreachable")` branch taken when a second negative header is read
right after a skip. -/
def Pop (q : Queue) (dst : List Nat) : PopResult :=
  if IsEmpty q then .empty
  else if popMetaFst q < 0 ∧ popMetaReal q < 0 then .panicked
  else
    let out := dst ++ readBytes q.mem (pos q (popDataPtr q)) (popDataSize q)
    .ok { q with readPtr := wrap64 (popDataPtr q + popDataSize q) } out

/-- One producer/consumer call, for reasoning about call sequences.
A `pop`'s `dst` argument never affects the queue state, so it is omitted. -/
inductive Op where
  | push (buf : List Nat)
  | pop

/-- State transition of one call.  A failed (`Full`/`Empty`) call leaves the
state unchanged, exactly as the Go code returns before mutating anything; the
`panic` branch aborts the Go process, so it is modelled as no further change. -/
def applyOp (q : Queue) : Op → Queue
  | .push buf =>
      match Push q buf with
      | .ok q' => q'
      | .full => q
  | .pop =>
      match Pop q [] with
      | .ok q' _ => q'
      | _ => q

/-- Run a sequence of calls. -/
def runOps (q : Queue) (ops : List Op) : Queue := ops.foldl applyOp q

/-- Total region cost of a list of frames: `4`-byte header plus payload each. -/
def framesCost : List (List Nat) → Nat
  | [] => 0
  | p :: t => 4 + p.length + framesCost t

/-- The frames `l` are laid out contiguously in `mem` starting at byte
offset `ofs`: each header holds the payload length, followed by the bytes. -/
def linLayout (mem : Nat → Nat) : Nat → List (List Nat) → Prop
  | _, [] => True
  | ofs, p :: t =>
      readMeta mem ofs = (p.length : Int) ∧
      (∀ i, i < p.length → mem (ofs + 4 + i) = p.getD i 0) ∧
      linLayout mem (ofs + 4 + p.length) t

/-- Push the payloads in order; `none` as soon as one `Push` reports `Full`. -/
def pushAll (q : Queue) : List (List Nat) → Option Queue
  | [] => some q
  | p :: t =>
    match Push q p with
    | .ok q' => pushAll q' t
    | .full => none

/-- Call `Pop` (with an empty `dst`) `n` times, collecting the payloads of the
successful calls; stop at the first `Empty` or panic. -/
def popN (q : Queue) : Nat → List (List Nat) × Queue
  | 0 => ([], q)
  | n + 1 =>
    match Pop q [] with
    | .ok q' out =>
      let r := popN q' n
      (out :: r.1, r.2)
    | _ => ([], q)

/-- Spec §4.2 admission algorithm as worded by claim C3, over exact
(unbounded) arithmetic: full when the logical occupancy
`(writeCursor + headerSize + n) - readCursor` would exceed capacity;
otherwise, with `physRead = readCursor mod capacity`,
`physWrite = writeCursor mod capacity` and `cost = headerSize + n`:
if `physRead ≤ physWrite`, full iff neither `physWrite + cost ≤ capacity`
nor `cost ≤ physRead` holds; if `physWrite < physRead`, full iff
`physWrite + cost > physRead`. -/
def specFull (r w cap n : Nat) : Bool :=
  if w + 4 + n - r > cap then true
  else
    let physRead := r % cap
    let physWrite := w % cap
    let cost := 4 + n
    if physRead ≤ physWrite then
      decide (¬(physWrite + cost ≤ cap ∨ cost ≤ physRead))
    else decide (physWrite + cost > physRead)

/-- `IsFull` evaluates its `% q.cap` expressions (where Go divides by zero
when `cap = 0`) exactly when its first admission check does not fire. -/
def isFullTakesModPath (q : Queue) (n : Nat) : Prop :=
  sub64 (wrap64 (q.writePtr + 4 + n)) q.readPtr ≤ q.memLen

/-- The write pointer stored by a successful `Push`, if any. -/
def pushedWritePtr : PushResult → Option Nat
  | .ok q => some q.writePtr
  | .full => none

/-- Logical cursor distance consumed by the frame of payload `p` written at
logical position `a`: the optional skip slack plus header plus payload. -/
def frameCost (cap a : Nat) (p : List Nat) : Nat :=
  if cap - a % cap < 4 + p.length then (cap - a % cap) + 4 + p.length
  else 4 + p.length

/-- The frame of payload `p` is stored at logical position `a`: either
directly (header then bytes at `a % cap`), or, when the tail segment is too
short, as a skip pseudo-frame at `a % cap` followed by the real frame at
physical position 0. -/
def frameAt (mem : Nat → Nat) (cap a : Nat) (p : List Nat) : Prop :=
  if cap - a % cap < 4 + p.length then
    readMeta mem (a % cap) = -((cap - a % cap : Nat) : Int) ∧
    4 + p.length ≤ a % cap ∧
    readMeta mem 0 = (p.length : Int) ∧
    (∀ i, i < p.length → mem (4 + i) = p.getD i 0)
  else
    readMeta mem (a % cap) = (p.length : Int) ∧
    (∀ i, i < p.length → mem (a % cap + 4 + i) = p.getD i 0)

/-- The pending payloads `ps` are laid out as consecutive frames from the
read cursor `r` up to the write cursor `w`. -/
def chain (mem : Nat → Nat) (cap : Nat) : Nat → List (List Nat) → Nat → Prop
  | r, [], w => r = w
  | r, p :: t, w => frameAt mem cap r p ∧ chain mem cap (r + frameCost cap r p) t w

/-- Byte `x` lies in some literally-contiguous in-window interval whose
logical span is inside `[lo, hi)`: there are a logical start `u` and a size
`m` with `u % cap + m ≤ cap` such that `x` is among the bytes
`[u % cap, u % cap + m)`. -/
def inShadow (cap lo hi x : Nat) : Prop :=
  ∃ u m, lo ≤ u ∧ u + m ≤ hi ∧ u % cap + m ≤ cap ∧ u % cap ≤ x ∧ x < u % cap + m

/-- The byte positions a `frameAt cap a p` predicate constrains: its
in-window bytes, plus (for a straddling skip header) up to 3 pad bytes at
`cap` and beyond. -/
def frameBytes (cap a : Nat) (p : List Nat) (x : Nat) : Prop :=
  inShadow cap a (a + frameCost cap a p) x ∨
    (cap - a % cap < 4 + p.length ∧ cap ≤ x ∧ x < a % cap + 4)

/-- The byte positions a whole `chain` constrains. -/
def chainBytes (cap : Nat) : Nat → List (List Nat) → Nat → Prop
  | _, [], _ => False
  | r, p :: t, x => frameBytes cap r p x ∨ chainBytes cap (r + frameCost cap r p) t x

/-- The representation invariant tying a queue state to its pending
payloads, for a capacity below the header's signed-32-bit bound. -/
structure Inv (q : Queue) (ps : List (List Nat)) : Prop where
  hcap0 : 0 < q.cap
  hcap31 : q.cap < 2 ^ 31
  hml : q.memLen = q.cap
  hrw : q.readPtr ≤ q.writePtr
  hocc : q.writePtr - q.readPtr ≤ q.cap
  hwlt : q.writePtr < U64
  hch : chain q.mem q.cap q.readPtr ps q.writePtr

/-- Guard ensuring one call's `uint64` cursor arithmetic cannot overflow:
pushes must keep the (logical) write cursor below `2 ^ 64`. -/
def opOk (q : Queue) : Op → Prop
  | .push buf => q.writePtr + q.cap + 4 + buf.length < U64
  | .pop => True

/-- Every call of the sequence satisfies its `opOk` guard in the state in
which it executes. -/
def okRun : Queue → List Op → Prop
  | _, [] => True
  | q, op :: rest => opOk q op ∧ okRun (applyOp q op) rest

/-- A `2 ^ 31`-byte payload of a constant byte `b`: its length overflows the
signed-32-bit header. -/
def bigPayload (b : Nat) : List Nat := List.replicate (2 ^ 31) b

/-- A `2 ^ 31`-byte payload whose bytes 64..67 spell the `int32` value
`2 ^ 31 - 1` in little-endian order. -/
def trapPayload : List Nat :=
  List.replicate 64 0 ++ [255, 255, 255, 127] ++ List.replicate (2 ^ 31 - 68) 0

/-- A capacity-8 queue with both cursors at 6: 2 bytes of tail slack, so any
push must lay down a skip pseudo-frame. -/
def skipDemoQueue : Queue :=
  { NewQueue 8 with readPtr := 6, writePtr := 6 }

/-! ### Arithmetic infrastructure -/

theorem U64_eq : U64 = 18446744073709551616 := by norm_num [U64]

theorem wrap64_eq_of_lt {n : Nat} (h : n < U64) : wrap64 n = n :=
  Nat.mod_eq_of_lt h

theorem wrap64_lt (n : Nat) : wrap64 n < U64 :=
  Nat.mod_lt _ (by rw [U64_eq]; omega)

theorem wrap64_wrap64_add (a b : Nat) : wrap64 (wrap64 a + b) = wrap64 (a + b) := by
  unfold wrap64
  conv_rhs => rw [Nat.add_mod, ← Nat.mod_mod_of_dvd a (dvd_refl U64), ← Nat.add_mod]

theorem sub64_eq {a b : Nat} (ha : a < U64) (hb : b < U64) (hba : b ≤ a) :
    sub64 a b = a - b := by
  unfold sub64 wrap64
  rw [Nat.mod_eq_of_lt ha, Nat.mod_eq_of_lt hb]
  rw [U64_eq] at *
  omega

theorem sub64_wrap64_left (a b : Nat) : sub64 (wrap64 a) b = sub64 a b := by
  unfold sub64 wrap64
  rw [Nat.mod_mod_of_dvd a (dvd_refl U64)]

/-- The first admission check of `IsFull` computes the logical occupancy
`(w + 4 + n) - r` exactly, as long as that occupancy is below `2 ^ 64`. -/
theorem sub64_first_check {w r n : Nat} (hr : r ≤ w) (hw : r < U64)
    (h : w + 4 + n - r < U64) :
    sub64 (wrap64 (w + 4 + n)) r = w + 4 + n - r := by
  rw [sub64_wrap64_left]
  unfold sub64 wrap64
  rw [Nat.mod_eq_of_lt hw, U64_eq] at *
  omega

theorem toInt32_lb (n : Nat) : -(2 ^ 31) ≤ toInt32 n := by
  unfold toInt32
  split <;> omega

theorem toInt32_ub (n : Nat) : toInt32 n < 2 ^ 31 := by
  unfold toInt32
  have := Nat.mod_lt n (y := 2 ^ 32) (by norm_num)
  split
  · omega
  · omega

theorem toInt32_eq_of_lt {n : Nat} (h : n < 2 ^ 31) : toInt32 n = n := by
  unfold toInt32
  rw [Nat.mod_eq_of_lt (show n < 2 ^ 32 by omega)]
  split <;> omega

theorem wrapI32_eq {z : Int} (h1 : -(2 ^ 31) ≤ z) (h2 : z < 2 ^ 31) : wrapI32 z = z := by
  unfold wrapI32
  omega

theorem negI32_eq {z : Int} (h1 : -(2 ^ 31) < z) (h2 : z ≤ 2 ^ 31) : negI32 z = -z := by
  unfold negI32
  exact wrapI32_eq (by omega) (by omega)

theorem u64OfI32_of_nonneg {z : Int} (h : 0 ≤ z) (h2 : z < 2 ^ 31) :
    u64OfI32 z = z.toNat := by
  unfold u64OfI32
  rw [Int.emod_eq_of_lt h (by omega)]

theorem u64OfI32_nat {n : Nat} (h : n < 2 ^ 31) : u64OfI32 (n : Int) = n := by
  rw [u64OfI32_of_nonneg (by omega) (by omega)]
  simp

/-! ### Header byte lemmas -/

theorem metaByte_lt (v : Int) (k : Nat) : metaByte v k < 256 :=
  Nat.mod_lt _ (by norm_num)

theorem writeMeta_eq_of_lt {mem : Nat → Nat} {p v i} (h : i < p) :
    writeMeta mem p v i = mem i := by
  unfold writeMeta
  have h0 : i ≠ p := by omega
  have h1 : i ≠ p + 1 := by omega
  have h2 : i ≠ p + 2 := by omega
  have h3 : i ≠ p + 3 := by omega
  simp [h0, h1, h2, h3]

theorem writeMeta_eq_of_ge {mem : Nat → Nat} {p v i} (h : p + 4 ≤ i) :
    writeMeta mem p v i = mem i := by
  unfold writeMeta
  have h0 : i ≠ p := by omega
  have h1 : i ≠ p + 1 := by omega
  have h2 : i ≠ p + 2 := by omega
  have h3 : i ≠ p + 3 := by omega
  simp [h0, h1, h2, h3]

theorem writeMeta_at (mem : Nat → Nat) (p : Nat) (v : Int) (k : Nat) (hk : k < 4) :
    writeMeta mem p v (p + k) = metaByte v k := by
  unfold writeMeta
  interval_cases k
  · simp
  · have h0 : p + 1 ≠ p := by omega
    simp [h0]
  · have h0 : p + 2 ≠ p := by omega
    have h1 : p + 2 ≠ p + 1 := by omega
    simp [h0, h1]
  · have h0 : p + 3 ≠ p := by omega
    have h1 : p + 3 ≠ p + 1 := by omega
    have h2 : p + 3 ≠ p + 2 := by omega
    simp [h0, h1, h2]

/-- Reading back a just-written header yields the `int32`-wrapped value. -/
theorem readMeta_writeMeta (mem : Nat → Nat) (p : Nat) (v : Int) :
    readMeta (writeMeta mem p v) p = wrapI32 v := by
  unfold readMeta
  have e0 := writeMeta_at mem p v 0 (by omega)
  have e1 := writeMeta_at mem p v 1 (by omega)
  have e2 := writeMeta_at mem p v 2 (by omega)
  have e3 := writeMeta_at mem p v 3 (by omega)
  rw [show p + 0 = p from rfl] at e0
  rw [e0, e1, e2, e3]
  have b0 := metaByte_lt v 0
  have b1 := metaByte_lt v 1
  have b2 := metaByte_lt v 2
  have b3 := metaByte_lt v 3
  rw [Nat.mod_eq_of_lt b0, Nat.mod_eq_of_lt b1, Nat.mod_eq_of_lt b2, Nat.mod_eq_of_lt b3]
  unfold metaByte
  set V : Nat := (v % (2 ^ 32 : Int)).toNat with hV
  have hVlt : V < 2 ^ 32 := by
    have h1 : v % (2 ^ 32 : Int) < 2 ^ 32 := Int.emod_lt_of_pos v (by norm_num)
    omega
  have hsum : V / 256 ^ 0 % 256 + 256 * (V / 256 ^ 1 % 256) +
      256 ^ 2 * (V / 256 ^ 2 % 256) + 256 ^ 3 * (V / 256 ^ 3 % 256) = V := by
    have p0 : (256 : Nat) ^ 0 = 1 := by norm_num
    have p1 : (256 : Nat) ^ 1 = 256 := by norm_num
    have p2 : (256 : Nat) ^ 2 = 65536 := by norm_num
    have p3 : (256 : Nat) ^ 3 = 16777216 := by norm_num
    rw [p0, p1, p2, p3]
    omega
  rw [hsum]
  unfold toInt32 wrapI32
  have hVmod : V % 2 ^ 32 = V := Nat.mod_eq_of_lt hVlt
  rw [hVmod]
  have hVInt : (V : Int) = v % (2 ^ 32 : Int) := by
    rw [hV]
    exact Int.toNat_of_nonneg (Int.emod_nonneg v (by norm_num))
  split <;> omega

theorem readMeta_lb (mem : Nat → Nat) (p : Nat) : -(2 ^ 31) ≤ readMeta mem p :=
  toInt32_lb _

theorem readMeta_ub (mem : Nat → Nat) (p : Nat) : readMeta mem p < 2 ^ 31 :=
  toInt32_ub _

theorem readMeta_congr {mem mem' : Nat → Nat} {p : Nat}
    (h : ∀ k, k < 4 → mem' (p + k) = mem (p + k)) :
    readMeta mem' p = readMeta mem p := by
  unfold readMeta
  have h0 := h 0 (by omega)
  have h1 := h 1 (by omega)
  have h2 := h 2 (by omega)
  have h3 := h 3 (by omega)
  rw [show p + 0 = p from rfl] at h0
  rw [h0, h1, h2, h3]

theorem copyBytes_eq_of_lt {mem : Nat → Nat} {start buf i} (h : i < start) :
    copyBytes mem start buf i = mem i := by
  unfold copyBytes
  have : ¬(start ≤ i ∧ i < start + buf.length) := by omega
  simp [this]

theorem copyBytes_eq_of_ge {mem : Nat → Nat} {start buf i}
    (h : start + buf.length ≤ i) : copyBytes mem start buf i = mem i := by
  unfold copyBytes
  have : ¬(start ≤ i ∧ i < start + buf.length) := by omega
  simp [this]

theorem copyBytes_at {mem : Nat → Nat} {start : Nat} {buf : List Nat} {k : Nat}
    (h : k < buf.length) : copyBytes mem start buf (start + k) = buf.getD k 0 := by
  unfold copyBytes
  have : start ≤ start + k ∧ start + k < start + buf.length := by omega
  simp [this]

theorem readBytes_congr {mem mem' : Nat → Nat} {start size : Nat}
    (h : ∀ k, k < size → mem' (start + k) = mem (start + k)) :
    readBytes mem' start size = readBytes mem start size := by
  unfold readBytes
  exact List.map_congr_left fun i hi => h i (List.mem_range.mp hi)

theorem readBytes_eq_payload {mem : Nat → Nat} {start : Nat} {p : List Nat}
    (h : ∀ i, i < p.length → mem (start + i) = p.getD i 0) :
    readBytes mem start p.length = p := by
  apply List.ext_getElem
  · simp [readBytes]
  · intro i h1 h2
    simp only [readBytes, List.getElem_map, List.getElem_range]
    rw [h i h2, List.getD_eq_getElem]

/-! ### The FIFO round trip (claim C1)

When every payload is pushed from a fresh queue before any pop, the read
cursor stays at 0 throughout the push phase, so `IsFull` can only admit a
frame through its tail-segment condition — which is exactly the negation of
`Push`'s skip condition.  Hence no skip pseudo-frame is ever written and the
frames occupy the region literally, one after the other. -/

theorem linLayout_congr {mem mem' : Nat → Nat} :
    ∀ (l : List (List Nat)) (ofs : Nat), linLayout mem ofs l →
    (∀ i, ofs ≤ i → i < ofs + framesCost l → mem' i = mem i) →
    linLayout mem' ofs l
  | [], _, _, _ => trivial
  | p :: t, ofs, ⟨hm, hp, hrest⟩, hagree => by
    refine ⟨?_, ?_, ?_⟩
    · rw [readMeta_congr fun k hk =>
        hagree (ofs + k) (by omega) (by simp [framesCost]; omega)]
      exact hm
    · intro i hi
      rw [hagree (ofs + 4 + i) (by omega) (by simp [framesCost]; omega)]
      exact hp i hi
    · exact linLayout_congr t (ofs + 4 + p.length) hrest fun i h1 h2 =>
        hagree i (by omega) (by simp [framesCost] at h2 ⊢; omega)

/-- In the all-pushes-first scenario (`readPtr = 0`), a successful admission
check means the frame fits in the tail segment. -/
theorem isFull_false_linear {q : Queue} {len : Nat}
    (hr : q.readPtr = 0) (hml : q.memLen = q.cap) (hW : q.writePtr ≤ q.cap)
    (hcap : q.cap < 2 ^ 63) (hlen : len < 2 ^ 31)
    (hf : IsFull q len = false) : q.writePtr + 4 + len ≤ q.cap := by
  unfold IsFull at hf
  rw [hr, hml] at hf
  rw [sub64_first_check (by omega) (by rw [U64_eq]; omega)
    (by rw [U64_eq]; omega)] at hf
  split at hf
  · exact absurd hf (by simp)
  · omega

theorem pushAll_layout {cap : Nat} (hcap : cap < 2 ^ 63) :
    ∀ (rest : List (List Nat)) (q qf : Queue),
    q.readPtr = 0 → q.cap = cap → q.memLen = cap → q.memCap = cap + 3 →
    q.writePtr ≤ cap →
    (∀ p ∈ rest, p.length < 2 ^ 31) →
    pushAll q rest = some qf →
    qf.readPtr = 0 ∧ qf.cap = cap ∧ qf.memLen = cap ∧ qf.memCap = cap + 3 ∧
      qf.writePtr = q.writePtr + framesCost rest ∧ qf.writePtr ≤ cap ∧
      linLayout qf.mem q.writePtr rest ∧
      (∀ i, i < q.writePtr → qf.mem i = q.mem i)
  | [], q, qf, hr, hc, hml, hmc, hW, _, hok => by
    cases hok
    exact ⟨hr, hc, hml, hmc, by simp [framesCost], by omega, trivial, fun _ _ => rfl⟩
  | p :: rest, q, qf, hr, hc, hml, hmc, hW, hlens, hok => by
    have hlen : p.length < 2 ^ 31 := hlens p (by simp)
    -- the head push must have succeeded
    unfold pushAll at hok
    set W := q.writePtr with hWdef
    cases hP : Push q p with
    | full => rw [hP] at hok; exact absurd hok (by simp)
    | ok q1 =>
      rw [hP] at hok
      -- the push was admitted, so the frame fits the tail segment
      have hfull : IsFull q p.length = false := by
        by_contra hne
        have : IsFull q p.length = true := by
          cases hb : IsFull q p.length
          · exact absurd hb hne
          · rfl
        unfold Push at hP
        rw [this] at hP
        simp at hP
      have hfit : W + 4 + p.length ≤ cap := by
        have := isFull_false_linear hr (by rw [hml, hc]) (by rw [← hc] at hW; exact hW)
          (by rw [hc]; exact hcap) hlen hfull
        rw [← hc]; rw [hc] at this ⊢; exact this
      have hcappos : 0 < cap := by omega
      have hWlt : W < cap := by omega
      have hpos : pos q W = W := by
        unfold pos; rw [hc]; exact Nat.mod_eq_of_lt hWlt
      -- no skip pseudo-frame is written
      have hskip : pushNeedsSkip q p.length = false := by
        unfold pushNeedsSkip skipLen
        rw [hpos, hc]
        simp only [decide_eq_false_iff_not]
        omega
      have heff : pushEffPtr q p.length = W := by unfold pushEffPtr; rw [hskip]; simp
      have hmem1 : pushMem1 q p.length = q.mem := by unfold pushMem1; rw [hskip]; simp
      -- the state after the head push
      have hq1 : q1 = { q with
          writePtr := wrap64 (W + 4 + p.length),
          mem := copyBytes (writeMeta q.mem (pos q W) (toInt32 p.length))
            (pos q W + 4) p } := by
        unfold Push at hP
        rw [hfull] at hP
        simp only [Bool.false_eq_true, if_false, heff, hmem1] at hP
        cases hP
        rfl
      have hwrap : wrap64 (W + 4 + p.length) = W + 4 + p.length :=
        wrap64_eq_of_lt (by rw [U64_eq]; omega)
      rw [hq1] at hok
      have ih := pushAll_layout hcap rest _ qf (by simpa using hr) (by simpa using hc)
        (by simpa using hml) (by simpa using hmc)
        (by simp only [hwrap]; omega) (fun x hx => hlens x (by simp [hx])) hok
      obtain ⟨ihr, ihc, ihml, ihmc, ihW, ihWle, ihlay, ihagree⟩ := ih
      simp only [hwrap] at ihW ihagree ihlay
      refine ⟨ihr, ihc, ihml, ihmc, ?_, ihWle, ?_, ?_⟩
      · rw [ihW]; simp [framesCost]; omega
      · -- layout of the new frame plus the remaining ones
        refine ⟨?_, ?_, ihlay⟩
        · rw [readMeta_congr fun k hk => ihagree (W + k) (by omega)]
          rw [hpos]
          have : ∀ k, k < 4 → copyBytes (writeMeta q.mem W (toInt32 p.length))
              (W + 4) p (W + k) = writeMeta q.mem W (toInt32 p.length) (W + k) :=
            fun k hk => copyBytes_eq_of_lt (by omega)
          rw [readMeta_congr fun k hk => this k hk, readMeta_writeMeta,
            wrapI32_eq (by have := toInt32_lb p.length; omega)
              (toInt32_ub p.length), toInt32_eq_of_lt hlen]
        · intro i hi
          rw [ihagree (W + 4 + i) (by omega), hpos, copyBytes_at hi]
      · intro i hi
        rw [ihagree i (by omega), hpos]
        rw [copyBytes_eq_of_lt (by omega), writeMeta_eq_of_lt (by omega)]

theorem popN_layout {cap : Nat} (hcap : cap < 2 ^ 63) :
    ∀ (l : List (List Nat)) (q : Queue),
    q.cap = cap → q.writePtr = q.readPtr + framesCost l →
    q.readPtr + framesCost l ≤ cap →
    linLayout q.mem q.readPtr l →
    (popN q l.length).1 = l
  | [], q, _, _, _, _ => rfl
  | p :: t, q, hc, hw, hle, ⟨hm, hp, hrest⟩ => by
    set R := q.readPtr with hR
    have hcost : framesCost (p :: t) = 4 + p.length + framesCost t := rfl
    have hcappos : 0 < cap := by omega
    have hRlt : R < cap := by omega
    have hposR : pos q R = R := by unfold pos; rw [hc]; exact Nat.mod_eq_of_lt hRlt
    have hempty : IsEmpty q = false := by
      unfold IsEmpty
      simp only [beq_eq_false_iff_ne, ne_eq]
      omega
    have hfst : popMetaFst q = (p.length : Int) := by
      unfold popMetaFst; rw [hposR]; exact hm
    have hstart : popFrameStart q = R := by
      unfold popFrameStart
      rw [hfst, if_neg (by omega)]
    have hreal : popMetaReal q = (p.length : Int) := by
      unfold popMetaReal; rw [hstart, hposR]; exact hm
    have hdp : popDataPtr q = R + 4 := by
      unfold popDataPtr
      rw [hstart]
      exact wrap64_eq_of_lt (by rw [U64_eq]; omega)
    have hds : popDataSize q = p.length := by
      unfold popDataSize; rw [hreal]; simp
    have hout : readBytes q.mem (pos q (popDataPtr q)) (popDataSize q) = p := by
      rw [hdp, hds]
      rcases Nat.eq_zero_or_pos p.length with hz | hpos1
      · rw [hz]
        unfold readBytes
        simp [List.length_eq_zero.mp hz]
      · have : pos q (R + 4) = R + 4 := by
          unfold pos; rw [hc]; exact Nat.mod_eq_of_lt (by omega)
        rw [this]
        exact readBytes_eq_payload fun i hi => hp i hi
    have hPop : Pop q [] =
        .ok { q with readPtr := R + 4 + p.length } p := by
      unfold Pop
      rw [hempty]
      simp only [Bool.false_eq_true, if_false]
      rw [if_neg (by rw [hfst]; omega)]
      rw [hout]
      have : wrap64 (popDataPtr q + popDataSize q) = R + 4 + p.length := by
        rw [hdp, hds]
        exact wrap64_eq_of_lt (by rw [U64_eq]; omega)
      rw [this]
      simp
    have ih := popN_layout hcap t { q with readPtr := R + 4 + p.length }
      hc (by simp [hw, hcost]; omega) (by simp; omega) (by simpa using hrest)
    show (popN q (t.length + 1)).1 = p :: t
    unfold popN
    rw [hPop]
    simpa using ih

theorem applyOp_push_full {q : Queue} {buf : List Nat} (h : Push q buf = .full) :
    applyOp q (.push buf) = q := by
  simp [applyOp, h]

theorem applyOp_pop_empty {q : Queue} (h : Pop q [] = .empty) :
    applyOp q .pop = q := by
  simp [applyOp, h]

/-- Claim C1, as stated, is false: with capacity 4, the single payload `[0]`
has length `1 ≤ 4`, yet pushing it and popping once does not return it —
the push is rejected (`4`-byte header + 1 payload byte exceed the capacity)
and the pop finds the queue empty. -/
theorem C1_cex :
    ([0] : List Nat).length ≤ 4 ∧
      (popN (runOps (NewQueue 4) [Op.push [0]]) 1).1 ≠ [[0]] := by
  constructor
  · decide
  · decide

/-- Claim C1 (amended): for payloads `p1..pn`, each shorter than `2 ^ 31`
bytes (the header's signed-32-bit contract, `src/queue.go` line 102), if
every `Push` from the freshly constructed queue succeeds, then popping `n`
times yields exactly `p1..pn` in order, byte for byte, including zero-length
payloads.  (`cap < 2 ^ 63` reflects Go's `int` bound on slice lengths.) -/
theorem C1_fifo_roundtrip (cap : Nat) (ps : List (List Nat)) (qf : Queue)
    (hcap : cap < 2 ^ 63)
    (hlen : ∀ p ∈ ps, p.length < 2 ^ 31)
    (hok : pushAll (NewQueue cap) ps = some qf) :
    (popN qf ps.length).1 = ps := by
  obtain ⟨hr, hc, hml, hmc, hW, hWle, hlay, _⟩ :=
    pushAll_layout hcap ps (NewQueue cap) qf rfl rfl rfl rfl
      (by simp [NewQueue]) hlen hok
  refine popN_layout hcap ps qf hc ?_ ?_ ?_
  · rw [hW, hr]
    simp [NewQueue]
  · rw [hr]
    have := hWle
    rw [hW] at this
    simpa [NewQueue] using this
  · rw [hr]
    simpa [NewQueue] using hlay

/-- Witness for claim C1: a concrete two-payload round trip through the
amended theorem. -/
theorem C1_fifo_roundtrip_witness :
    (popN ((pushAll (NewQueue 16) [[1, 2, 3], [4]]).getD (NewQueue 0)) 2).1 =
      [[1, 2, 3], [4]] := by
  have h : pushAll (NewQueue 16) [[1, 2, 3], [4]] =
      some ((pushAll (NewQueue 16) [[1, 2, 3], [4]]).getD (NewQueue 0)) := rfl
  exact C1_fifo_roundtrip 16 [[1, 2, 3], [4]] _ (by norm_num) (by decide) h

/-- Claim C3: on any queue state satisfying the cursor invariant
(`readPtr ≤ writePtr`, occupancy at most `cap`, with `len(q.mem) = cap` as
established by the constructor, and values inside Go's machine bounds:
`cap < 2 ^ 63` since `len(mem)` is a Go `int`, cursors below `2 ^ 64`, and
the candidate occupancy not overflowing `uint64`), `IsFull` returns exactly
what the spec §4.2 algorithm (`specFull`) prescribes.  `IsFull` is a pure
function of the state in this embedding, mirroring that the Go method only
performs reads. -/
theorem C3_isFull_matches_spec (q : Queue) (n : Nat)
    (hml : q.memLen = q.cap) (hcap : q.cap < 2 ^ 63)
    (hrw : q.readPtr ≤ q.writePtr) (hw : q.writePtr < U64)
    (hocc : q.writePtr - q.readPtr ≤ q.cap)
    (hn : q.writePtr - q.readPtr + 4 + n < U64) :
    IsFull q n = specFull q.readPtr q.writePtr q.cap n := by
  have hU := U64_eq
  unfold IsFull specFull
  rw [hml]
  rw [sub64_first_check hrw (by omega) (by omega)]
  by_cases h1 : q.writePtr + 4 + n - q.readPtr > q.cap
  · simp [h1]
  · have hcap0 : 0 < q.cap := by omega
    have hn4 : n + 4 < U64 := by omega
    have hpr : q.readPtr % q.cap < q.cap := Nat.mod_lt _ hcap0
    have hpw : q.writePtr % q.cap < q.cap := Nat.mod_lt _ hcap0
    simp only [h1, if_false]
    rw [show wrap64 (n + 4) = n + 4 from wrap64_eq_of_lt hn4]
    unfold pos
    have hwc : wrap64 (q.writePtr % q.cap + (n + 4)) = q.writePtr % q.cap + (n + 4) :=
      wrap64_eq_of_lt (by omega)
    rw [hwc]
    by_cases h2 : q.readPtr % q.cap ≤ q.writePtr % q.cap
    · simp only [h2, if_true]
      by_cases h3 : q.writePtr % q.cap + (n + 4) ≤ q.cap
      · rw [if_pos h3]
        have hA : q.writePtr % q.cap + (4 + n) ≤ q.cap := by omega
        simp [hA]
      · rw [if_neg h3]
        by_cases h4 : n + 4 ≤ q.readPtr % q.cap
        · rw [if_pos h4]
          have hB : 4 + n ≤ q.readPtr % q.cap := by omega
          simp [hB]
        · rw [if_neg h4]
          have hAB : ¬(q.writePtr % q.cap + (4 + n) ≤ q.cap ∨
              4 + n ≤ q.readPtr % q.cap) := by omega
          simp [hAB]
    · simp only [h2, if_false]
      have hiff : q.writePtr % q.cap + (n + 4) > q.readPtr % q.cap ↔
          q.writePtr % q.cap + (4 + n) > q.readPtr % q.cap := by omega
      simp [hiff]

/-- Witness for claim C3 at the boundary state of the repository's own
`TestQueue_IsFull`: capacity 64, cursors 24/48; the model and the spec
algorithm agree (both report not-full for a 20-byte payload). -/
theorem C3_isFull_matches_spec_witness :
    IsFull { NewQueue 64 with readPtr := 24, writePtr := 48 } 20 =
      specFull 24 48 64 20 ∧
    IsFull { NewQueue 64 with readPtr := 24, writePtr := 48 } 20 = false := by
  constructor
  · exact C3_isFull_matches_spec { NewQueue 64 with readPtr := 24, writePtr := 48 } 20
      rfl (by decide) (by decide) (by rw [U64_eq]; decide) (by decide)
      (by rw [U64_eq]; decide)
  · decide

/-- Claim C5: `Push` on a full queue returns the `Full` error having mutated
nothing, `Pop` on an empty queue (equal cursors) returns the `Empty` error
having mutated nothing, and `Pop` on a freshly constructed queue returns
`Empty`.  In this embedding "mutates nothing" is the equation
`applyOp q _ = q` on the whole state (region and both cursors). -/
theorem C5_error_atomicity :
    (∀ q buf, IsFull q buf.length = true →
      Push q buf = .full ∧ applyOp q (.push buf) = q) ∧
    (∀ q dst, q.readPtr = q.writePtr →
      Pop q dst = .empty ∧ applyOp q .pop = q) ∧
    (∀ c dst, Pop (NewQueue c) dst = .empty) := by
  have hpush : ∀ q buf, IsFull q buf.length = true → Push q buf = .full := by
    intro q buf h
    unfold Push
    rw [h]
    simp
  have hpop : ∀ q dst, q.readPtr = q.writePtr → Pop q dst = .empty := by
    intro q dst h
    have he : IsEmpty q = true := by
      unfold IsEmpty
      simp [h]
    unfold Pop
    rw [he]
    simp
  exact ⟨fun q buf h => ⟨hpush q buf h, applyOp_push_full (hpush q buf h)⟩,
    fun q dst h => ⟨hpop q dst h, applyOp_pop_empty (hpop q [] h)⟩,
    fun c dst => hpop (NewQueue c) dst rfl⟩

/-- Witness for claim C5: the full case on a capacity-4 queue (a 1-byte
payload costs 5 bytes) and the empty case on a fresh capacity-7 queue. -/
theorem C5_error_atomicity_witness :
    Push (NewQueue 4) [9] = .full ∧ applyOp (NewQueue 4) (.push [9]) = NewQueue 4 ∧
      Pop (NewQueue 7) [] = .empty ∧ applyOp (NewQueue 7) .pop = NewQueue 7 := by
  refine ⟨(C5_error_atomicity.1 (NewQueue 4) [9] (by decide)).1,
    (C5_error_atomicity.1 (NewQueue 4) [9] (by decide)).2,
    (C5_error_atomicity.2.1 (NewQueue 7) [] rfl).1,
    (C5_error_atomicity.2.1 (NewQueue 7) [] rfl).2⟩

/-- Claim C7: `NewQueue cap` allocates a backing region of
`cap + 3 = cap + headerSize - 1` bytes (Go `make([]byte, cap, cap+3)`:
slice length `cap`, allocated capacity `cap + 3`), zero-initialized, and
sets both cursors to 0. -/
theorem C7_construct (c : Nat) :
    (NewQueue c).memCap = c + 3 ∧ (NewQueue c).memLen = c ∧
      (NewQueue c).readPtr = 0 ∧ (NewQueue c).writePtr = 0 ∧
      ∀ i, (NewQueue c).mem i = 0 :=
  ⟨rfl, rfl, rfl, rfl, fun _ => rfl⟩

/-- Claim C8: a capacity-0 queue is always-full/always-empty: `IsFull`
answers `true` through its first (purely logical) check without ever
reaching the `% cap` computation (so Go's division by zero cannot fire),
`Push` fails with `Full` and mutates nothing, `IsEmpty` is `true`, and `Pop`
fails with `Empty` and mutates nothing.  The bounds `n + 4 < 2 ^ 64` hold
for every length a Go payload can have (slice lengths are `int`). -/
theorem C8_capacity_zero (n : Nat) (buf dst : List Nat)
    (hn : n + 4 < U64) (hbuf : buf.length + 4 < U64) :
    IsFull (NewQueue 0) n = true ∧
      ¬isFullTakesModPath (NewQueue 0) n ∧
      Push (NewQueue 0) buf = .full ∧
      applyOp (NewQueue 0) (.push buf) = NewQueue 0 ∧
      IsEmpty (NewQueue 0) = true ∧
      Pop (NewQueue 0) dst = .empty ∧
      applyOp (NewQueue 0) .pop = NewQueue 0 := by
  have hchk : ∀ m : Nat, m + 4 < U64 →
      sub64 (wrap64 ((NewQueue 0).writePtr + 4 + m)) (NewQueue 0).readPtr = 4 + m := by
    intro m hm
    have := sub64_first_check (w := 0) (r := 0) (n := m) (by omega)
      (by rw [U64_eq]; omega) (by omega)
    simpa [NewQueue] using this
  have hfull : ∀ m : Nat, m + 4 < U64 → IsFull (NewQueue 0) m = true := by
    intro m hm
    unfold IsFull
    rw [hchk m hm]
    have : 4 + m > (NewQueue 0).memLen := by simp [NewQueue]
    rw [if_pos this]
  have hp : Push (NewQueue 0) buf = .full := by
    unfold Push
    rw [hfull buf.length hbuf]
    simp
  have hq : Pop (NewQueue 0) dst = .empty := by
    unfold Pop
    have : IsEmpty (NewQueue 0) = true := rfl
    rw [this]
    simp
  have hq0 : Pop (NewQueue 0) [] = .empty := by
    unfold Pop
    have : IsEmpty (NewQueue 0) = true := rfl
    rw [this]
    simp
  refine ⟨hfull n hn, ?_, hp, applyOp_push_full hp, rfl, hq, applyOp_pop_empty hq0⟩
  unfold isFullTakesModPath
  rw [hchk n hn]
  simp [NewQueue]

/-! ### General characterization of the operations -/

theorem pos_lt {q : Queue} (h : 0 < q.cap) (ptr : Nat) : pos q ptr < q.cap :=
  Nat.mod_lt _ h

theorem pos_eq (q : Queue) (ptr : Nat) : pos q ptr = ptr % q.cap := rfl

/-- `(a + k) % cap` stays literal while it does not cross the window end. -/
theorem mod_add_small {cap a k : Nat} (h : a % cap + k < cap) :
    (a + k) % cap = a % cap + k := by
  conv_lhs => rw [← Nat.div_add_mod a cap]
  rw [Nat.add_assoc, Nat.mul_add_mod]
  exact Nat.mod_eq_of_lt h

/-- Advancing by the tail slack lands exactly on physical position 0. -/
theorem pos_add_slack {cap a : Nat} (h : 0 < cap) :
    (a + (cap - a % cap)) % cap = 0 := by
  have h1 : a % cap < cap := Nat.mod_lt _ h
  have h2 : a % cap + cap * (a / cap) = a := Nat.mod_add_div _ _
  have h3 : a + (cap - a % cap) = cap * (a / cap) + cap := by omega
  rw [h3, ← Nat.mul_succ, Nat.mul_comm, Nat.mul_mod_left]

/-- Two literally-contiguous in-window byte intervals with disjoint logical
spans inside one capacity window occupy disjoint byte ranges. -/
theorem litIntervals_disjoint {cap u m u2 m2 x : Nat} (hcap : 0 < cap)
    (hm : u % cap + m ≤ cap) (hm2 : u2 % cap + m2 ≤ cap)
    (hord : u + m ≤ u2) (hwin : u2 + m2 ≤ u + cap)
    (hx1 : u % cap ≤ x) (hx2 : x < u % cap + m)
    (hy1 : u2 % cap ≤ x) (hy2 : x < u2 % cap + m2) : False := by
  set k := x - u % cap with hk
  set k2 := x - u2 % cap with hk2
  have e1 : (u + k) % cap = x := by
    rw [mod_add_small (by omega)]
    omega
  have e2 : (u2 + k2) % cap = x := by
    rw [mod_add_small (by omega)]
    omega
  have hlt : u + k < u2 + k2 := by omega
  have hspan : u2 + k2 - (u + k) < cap := by omega
  have hdvd : cap ∣ (u2 + k2) - (u + k) :=
    (Nat.modEq_iff_dvd' (by omega)).mp (e1.trans e2.symm)
  have := Nat.le_of_dvd (by omega) hdvd
  omega

theorem inShadow_lt_cap {cap lo hi x : Nat} (h : inShadow cap lo hi x) : x < cap := by
  obtain ⟨u, m, _, _, h3, _, h5⟩ := h
  omega

theorem inShadow_mono {cap lo hi lo' hi' x : Nat} (h : inShadow cap lo hi x)
    (h1 : lo' ≤ lo) (h2 : hi ≤ hi') : inShadow cap lo' hi' x := by
  obtain ⟨u, m, hu1, hu2, hu3, hu4, hu5⟩ := h
  exact ⟨u, m, by omega, by omega, hu3, hu4, hu5⟩

/-- Bytes of two shadows with disjoint logical spans within one window
cannot coincide. -/
theorem inShadow_disjoint {cap a b a2 b2 x : Nat} (hcap : 0 < cap)
    (h1 : inShadow cap a b x) (h2 : inShadow cap a2 b2 x)
    (hord : b ≤ a2) (hwin : b2 ≤ a + cap) : False := by
  obtain ⟨u, m, hu1, hu2, hu3, hu4, hu5⟩ := h1
  obtain ⟨u2, m2, hv1, hv2, hv3, hv4, hv5⟩ := h2
  exact litIntervals_disjoint hcap hu3 hv3 (by omega) (by omega) hu4 hu5 hv4 hv5

/-- A successful `Push` in one equation, in terms of the effective pointer
and the staged region writes. -/
theorem Push_ok {q : Queue} {buf : List Nat} (hfull : IsFull q buf.length = false) :
    Push q buf = .ok { q with
      writePtr := wrap64 (pushEffPtr q buf.length + 4 + buf.length),
      mem := copyBytes (writeMeta (pushMem1 q buf.length)
        (pos q (pushEffPtr q buf.length)) (toInt32 buf.length))
        (pos q (pushEffPtr q buf.length) + 4) buf } := by
  unfold Push
  rw [hfull]
  simp

/-- A completing `Pop` in one equation. -/
theorem Pop_ok_char {q : Queue} {dst : List Nat} (hne : IsEmpty q = false)
    (hnp : ¬(popMetaFst q < 0 ∧ popMetaReal q < 0)) :
    Pop q dst = .ok { q with readPtr := wrap64 (popDataPtr q + popDataSize q) }
      (dst ++ readBytes q.mem (pos q (popDataPtr q)) (popDataSize q)) := by
  unfold Pop
  rw [hne]
  simp only [Bool.false_eq_true, if_false]
  rw [if_neg hnp]

/-- The `panic("unreachable")` branch of `Pop` in one equation. -/
theorem Pop_panicked_char {q : Queue} {dst : List Nat} (hne : IsEmpty q = false)
    (h1 : popMetaFst q < 0) (h2 : popMetaReal q < 0) :
    Pop q dst = .panicked := by
  unfold Pop
  rw [hne]
  simp only [Bool.false_eq_true, if_false]
  rw [if_pos ⟨h1, h2⟩]

/-- What a failed admission check rules out: a false `IsFull` yields the
logical-occupancy bound plus one of the three placement facts. -/
theorem isFull_false_elim {q : Queue} {len : Nat}
    (hml : q.memLen = q.cap) (hrlt : q.readPtr < U64)
    (hrw : q.readPtr ≤ q.writePtr)
    (hnov : q.writePtr + 4 + len < U64)
    (hf : IsFull q len = false) :
    q.writePtr + 4 + len - q.readPtr ≤ q.cap ∧
      ((pos q q.readPtr ≤ pos q q.writePtr ∧
          (pos q q.writePtr + (len + 4) ≤ q.cap ∨ len + 4 ≤ pos q q.readPtr)) ∨
        (pos q q.writePtr < pos q q.readPtr ∧
          pos q q.writePtr + (len + 4) ≤ pos q q.readPtr)) := by
  unfold IsFull at hf
  rw [hml, sub64_first_check hrw hrlt (by omega)] at hf
  have hlen4 : wrap64 (len + 4) = len + 4 := wrap64_eq_of_lt (by rw [U64_eq] at *; omega)
  have hposw : pos q q.writePtr ≤ q.writePtr := Nat.mod_le _ _
  have hpw4 : wrap64 (pos q q.writePtr + wrap64 (len + 4)) =
      pos q q.writePtr + (len + 4) := by
    rw [hlen4]
    exact wrap64_eq_of_lt (by rw [U64_eq] at *; omega)
  split at hf
  · exact absurd hf (by simp)
  · constructor
    · omega
    · replace hf : (if pos q q.readPtr ≤ pos q q.writePtr then
          if wrap64 (pos q q.writePtr + wrap64 (len + 4)) ≤ q.cap then false
          else if wrap64 (len + 4) ≤ pos q q.readPtr then false
          else true
        else decide (wrap64 (pos q q.writePtr + wrap64 (len + 4)) > pos q q.readPtr)) =
          false := hf
      rw [hpw4, hlen4] at hf
      split at hf
      · rename_i hpr
        split at hf
        · rename_i htail
          exact Or.inl ⟨hpr, Or.inl htail⟩
        · split at hf
          · rename_i hhead
            exact Or.inl ⟨hpr, Or.inr hhead⟩
          · exact absurd hf (by simp)
      · rename_i hpr
        simp only [decide_eq_false_iff_not, not_lt] at hf
        exact Or.inr ⟨by omega, hf⟩

/-! ### Frame and chain lemmas -/

theorem frameCost_ge (cap a : Nat) (p : List Nat) : 4 ≤ frameCost cap a p := by
  unfold frameCost
  split <;> omega

theorem frameAt_congr {mem mem' : Nat → Nat} {cap a : Nat} {p : List Nat}
    (hcap : 0 < cap) (hf : frameAt mem cap a p)
    (hag : ∀ x, frameBytes cap a p x → mem' x = mem x) :
    frameAt mem' cap a p := by
  have hpa : a % cap < cap := Nat.mod_lt _ hcap
  unfold frameAt at hf ⊢
  unfold frameBytes frameCost at hag
  by_cases hc : cap - a % cap < 4 + p.length
  · rw [if_pos hc] at hf ⊢
    rw [if_pos hc] at hag
    obtain ⟨hm1, hm2, hm3, hm4⟩ := hf
    have hcap4 : 4 < cap := by omega
    have hzero : (a + (cap - a % cap)) % cap = 0 := pos_add_slack hcap
    refine ⟨?_, hm2, ?_, ?_⟩
    · rw [readMeta_congr fun k hk => ?_]
      · exact hm1
      · apply hag
        by_cases hin : a % cap + k < cap
        · refine Or.inl ⟨a, min (cap - a % cap) 4, le_refl a, by omega, by omega,
            by omega, by omega⟩
        · exact Or.inr ⟨hc, by omega, by omega⟩
    · rw [readMeta_congr fun k hk => ?_]
      · exact hm3
      · apply hag
        refine Or.inl ⟨a + (cap - a % cap), 4, by omega, by omega, ?_, ?_, ?_⟩
        · rw [hzero]; omega
        · rw [hzero]; omega
        · rw [hzero]; omega
    · intro i hi
      rw [hag (4 + i) ?_]
      · exact hm4 i hi
      · refine Or.inl ⟨a + (cap - a % cap), 4 + p.length, by omega, by omega, ?_, ?_, ?_⟩
        · rw [hzero]; omega
        · rw [hzero]; omega
        · rw [hzero]; omega
  · rw [if_neg hc] at hf ⊢
    rw [if_neg hc] at hag
    obtain ⟨hm1, hm2⟩ := hf
    refine ⟨?_, ?_⟩
    · rw [readMeta_congr fun k hk => ?_]
      · exact hm1
      · exact hag _ (Or.inl ⟨a, 4 + p.length, le_refl a, by omega, by omega,
          by omega, by omega⟩)
    · intro i hi
      rw [hag (a % cap + 4 + i) (Or.inl ⟨a, 4 + p.length, le_refl a, by omega,
        by omega, by omega, by omega⟩)]
      exact hm2 i hi

theorem chain_ge {mem : Nat → Nat} {cap : Nat} :
    ∀ {ps : List (List Nat)} {r w : Nat}, chain mem cap r ps w → r ≤ w
  | [], _, _, h => Nat.le_of_eq h
  | p :: t, r, w, ⟨_, hrest⟩ => by
    have := chain_ge hrest
    have := frameCost_ge cap r p
    omega

theorem chain_snoc {mem : Nat → Nat} {cap : Nat} {p : List Nat} :
    ∀ {ps : List (List Nat)} {r w : Nat}, chain mem cap r ps w →
      frameAt mem cap w p → chain mem cap r (ps ++ [p]) (w + frameCost cap w p)
  | [], r, w, hch, hfr => by
    cases hch
    exact ⟨hfr, rfl⟩
  | p2 :: t, r, w, ⟨hf2, hrest⟩, hfr => ⟨hf2, chain_snoc hrest hfr⟩

theorem chain_congr {mem mem' : Nat → Nat} {cap : Nat} (hcap : 0 < cap) :
    ∀ {ps : List (List Nat)} {r w : Nat}, chain mem cap r ps w →
      (∀ x, chainBytes cap r ps x → mem' x = mem x) → chain mem' cap r ps w
  | [], _, _, h, _ => h
  | p :: t, r, w, ⟨hf, hrest⟩, hag =>
    ⟨frameAt_congr hcap hf fun x hx => hag x (Or.inl hx),
      chain_congr hcap hrest fun x hx => hag x (Or.inr hx)⟩

theorem chainBytes_cases {mem : Nat → Nat} {cap : Nat} (hcap : 0 < cap) :
    ∀ {ps : List (List Nat)} {r w x : Nat}, chain mem cap r ps w →
      chainBytes cap r ps x →
      inShadow cap r w x ∨
        (∃ a, r ≤ a ∧ a + 5 ≤ w ∧ cap - a % cap < 4 ∧ cap ≤ x ∧ x < a % cap + 4)
  | [], _, _, _, _, hx => absurd hx not_false
  | p :: t, r, w, x, ⟨hf, hrest⟩, hx => by
    have hle : r + frameCost cap r p ≤ w := chain_ge hrest
    cases hx with
    | inl hx =>
      cases hx with
      | inl hsh => exact Or.inl (inShadow_mono hsh (le_refl r) hle)
      | inr hpad =>
        obtain ⟨hc, hx1, hx2⟩ := hpad
        refine Or.inr ⟨r, le_refl r, ?_, by omega, hx1, hx2⟩
        have : (cap - r % cap) + 4 + p.length ≤ frameCost cap r p := by
          unfold frameCost
          rw [if_pos (by omega)]
        have hpa : r % cap < cap := Nat.mod_lt _ hcap
        omega
    | inr hx =>
      rcases chainBytes_cases hcap hrest hx with hsh | ⟨a, ha1, ha2, ha3, ha4, ha5⟩
      · exact Or.inl (inShadow_mono hsh (by omega) (le_refl w))
      · exact Or.inr ⟨a, by omega, ha2, ha3, ha4, ha5⟩

/-- What `Pop` does on a well-formed non-empty queue: it returns the first
pending payload, advances the read cursor by that frame's cost, reads only
in-bounds bytes, cannot hit the panic branch, and preserves the invariant. -/
theorem pop_char {q : Queue} {p : List Nat} {ps : List (List Nat)}
    (hinv : Inv q (p :: ps)) (dst : List Nat) :
    Pop q dst = .ok { q with readPtr := q.readPtr + frameCost q.cap q.readPtr p }
        (dst ++ p) ∧
      pos q (popDataPtr q) + popDataSize q ≤ q.cap ∧
      ¬(popMetaFst q < 0 ∧ popMetaReal q < 0) ∧
      Inv { q with readPtr := q.readPtr + frameCost q.cap q.readPtr p } ps := by
  obtain ⟨hcap0, hcap31, hml, hrw, hocc, hwlt, hch⟩ := hinv
  obtain ⟨hf, hrest⟩ := hch
  set cap := q.cap with hcapdef
  set r := q.readPtr with hrdef
  set w := q.writePtr with hwdef
  have hcost4 : 4 ≤ frameCost cap r p := frameCost_ge cap r p
  have hle : r + frameCost cap r p ≤ w := chain_ge hrest
  have hprlt : r % cap < cap := Nat.mod_lt _ hcap0
  have hne : IsEmpty q = false := by
    unfold IsEmpty
    simp only [beq_eq_false_iff_ne, ne_eq]
    omega
  have hlen31 : p.length < 2 ^ 31 := by
    unfold frameAt at hf
    split at hf
    · have h1 := readMeta_ub q.mem 0
      rw [hf.2.2.1] at h1
      omega
    · have h1 := readMeta_ub q.mem (r % cap)
      rw [hf.1] at h1
      omega
  unfold frameAt at hf
  by_cases hc : cap - r % cap < 4 + p.length
  · -- the frame sits behind a skip pseudo-frame
    rw [if_pos hc] at hf
    obtain ⟨hm1, hm2, hm3, hm4⟩ := hf
    set s := cap - r % cap with hsdef
    have hs1 : 1 ≤ s := by omega
    have hs31 : s < 2 ^ 31 := by omega
    have hcost : frameCost cap r p = s + 4 + p.length := by
      unfold frameCost
      rw [if_pos hc]
    have hfst : popMetaFst q = -(s : Int) := hm1
    have hfstneg : popMetaFst q < 0 := by rw [hfst]; omega
    have hskipv : u64OfI32 (negI32 (popMetaFst q)) = s := by
      rw [hfst]
      rw [show negI32 (-(s : Int)) = (s : Int) by
        have := negI32_eq (z := -(s : Int)) (by omega) (by omega)
        rw [this]; omega]
      exact u64OfI32_nat hs31
    have hskp : popSkipPtr q = r + s := by
      unfold popSkipPtr
      rw [hskipv]
      exact wrap64_eq_of_lt (by rw [U64_eq] at *; omega)
    have hstart : popFrameStart q = r + s := by
      unfold popFrameStart
      rw [if_pos hfstneg, hskp]
    have hpos0 : (r + s) % cap = 0 := by
      rw [hsdef]
      exact pos_add_slack hcap0
    have hpos0' : pos q (r + s) = 0 := hpos0
    have hreal : popMetaReal q = (p.length : Int) := by
      unfold popMetaReal
      rw [hstart, hpos0']
      exact hm3
    have hrealpos : ¬ popMetaReal q < 0 := by rw [hreal]; omega
    have hdp : popDataPtr q = r + s + 4 := by
      unfold popDataPtr
      rw [hstart]
      exact wrap64_eq_of_lt (by rw [U64_eq] at *; omega)
    have hds : popDataSize q = p.length := by
      unfold popDataSize
      rw [hreal]
      simp
    have hcap4 : 4 < cap := by omega
    have hpos4 : pos q (r + s + 4) = 4 := by
      show (r + s + 4) % cap = 4
      rw [mod_add_small (by rw [hpos0]; omega), hpos0]
    have hbytes : readBytes q.mem (pos q (popDataPtr q)) (popDataSize q) = p := by
      rw [hdp, hds, hpos4]
      exact readBytes_eq_payload fun i hi => hm4 i hi
    have hnext : wrap64 (popDataPtr q + popDataSize q) = r + frameCost cap r p := by
      rw [hdp, hds, hcost]
      rw [wrap64_eq_of_lt (by rw [U64_eq] at *; omega)]
      omega
    refine ⟨?_, ?_, fun h => hrealpos h.2, ?_⟩
    · rw [Pop_ok_char hne (fun h => hrealpos h.2), hbytes, hnext]
    · rw [hdp, hds, hpos4]
      omega
    · exact ⟨hcap0, hcap31, hml, by simp; omega, by simp; omega, by simp; omega,
        by simpa [hcost] using hrest⟩
  · -- a direct frame
    rw [if_neg hc] at hf
    obtain ⟨hm1, hm2⟩ := hf
    have hcost : frameCost cap r p = 4 + p.length := by
      unfold frameCost
      rw [if_neg hc]
    have hfst : popMetaFst q = (p.length : Int) := hm1
    have hfstpos : ¬ popMetaFst q < 0 := by rw [hfst]; omega
    have hstart : popFrameStart q = r := by
      unfold popFrameStart
      rw [if_neg hfstpos]
    have hreal : popMetaReal q = (p.length : Int) := by
      unfold popMetaReal
      rw [hstart]
      exact hm1
    have hrealpos : ¬ popMetaReal q < 0 := by rw [hreal]; omega
    have hdp : popDataPtr q = r + 4 := by
      unfold popDataPtr
      rw [hstart]
      exact wrap64_eq_of_lt (by rw [U64_eq] at *; omega)
    have hds : popDataSize q = p.length := by
      unfold popDataSize
      rw [hreal]
      simp
    have hnext : wrap64 (popDataPtr q + popDataSize q) = r + frameCost cap r p := by
      rw [hdp, hds, hcost]
      rw [wrap64_eq_of_lt (by rw [U64_eq] at *; omega)]
      omega
    have hposbound : pos q (popDataPtr q) + popDataSize q ≤ cap := by
      rw [hdp, hds]
      rcases Nat.eq_zero_or_pos p.length with hz | hp0
      · have := pos_lt (q := q) hcap0 (r + 4)
        omega
      · show (r + 4) % cap + p.length ≤ cap
        rw [mod_add_small (by omega)]
        omega
    have hbytes : readBytes q.mem (pos q (popDataPtr q)) (popDataSize q) = p := by
      rw [hdp, hds]
      rcases Nat.eq_zero_or_pos p.length with hz | hp0
      · rw [hz]
        unfold readBytes
        simp [List.length_eq_zero.mp hz]
      · show readBytes q.mem ((r + 4) % cap) p.length = p
        rw [mod_add_small (by omega)]
        exact readBytes_eq_payload fun i hi => hm2 i hi
    refine ⟨?_, hposbound, fun h => hfstpos h.1, ?_⟩
    · rw [Pop_ok_char hne (fun h => hfstpos h.1), hbytes, hnext]
    · exact ⟨hcap0, hcap31, hml, by simp; omega, by simp; omega, by simp; omega,
        by simpa [hcost] using hrest⟩

/-- What a successful `Push` does on a well-formed queue: the effective
write pointer advances the cursor by the frame cost, the payload write stays
inside `[0, cap)`, and the invariant is preserved with the payload appended
to the pending list. -/
theorem push_char {q : Queue} {ps : List (List Nat)} {buf : List Nat}
    (hinv : Inv q ps) (hok : q.writePtr + q.cap + 4 + buf.length < U64)
    (hfull : IsFull q buf.length = false) :
    wrap64 (pushEffPtr q buf.length + 4 + buf.length) =
        q.writePtr + frameCost q.cap q.writePtr buf ∧
      pos q (pushEffPtr q buf.length) + 4 + buf.length ≤ q.cap ∧
      Inv { q with
        writePtr := wrap64 (pushEffPtr q buf.length + 4 + buf.length),
        mem := copyBytes (writeMeta (pushMem1 q buf.length)
          (pos q (pushEffPtr q buf.length)) (toInt32 buf.length))
          (pos q (pushEffPtr q buf.length) + 4) buf } (ps ++ [buf]) := by
  obtain ⟨hcap0, hcap31, hml, hrw, hocc, hwlt, hch⟩ := hinv
  have hU := U64_eq
  set cap := q.cap with hcapdef
  set r := q.readPtr with hrdef
  set w := q.writePtr with hwdef
  set len := buf.length with hlendef
  have hrlt : r < U64 := by omega
  obtain ⟨hA, hB⟩ := isFull_false_elim hml hrlt hrw (by omega) hfull
  rw [pos_eq, pos_eq] at hB
  rw [← hwdef, ← hrdef, ← hcapdef] at hA hB
  have hprlt : r % cap < cap := Nat.mod_lt _ hcap0
  have hpwlt : w % cap < cap := Nat.mod_lt _ hcap0
  have hlen31 : len < 2 ^ 31 := by omega
  have hwr : w + 4 + len ≤ r + cap := by omega
  by_cases hsk : skipLen q < len + 4
  · -- skip pseudo-frame case
    replace hsk : cap - w % cap < len + 4 := hsk
    set s := cap - w % cap with hsdef
    have hskb : pushNeedsSkip q len = true := by
      unfold pushNeedsSkip
      simp only [decide_eq_true_eq]
      exact hsk
    have hs1 : 1 ≤ s := by omega
    have hs31 : s < 2 ^ 31 := by omega
    -- placement must be the wrap-around (head) case
    have hhead : len + 4 ≤ r % cap ∧ r % cap ≤ w % cap := by
      rcases hB with ⟨h1, h2 | h3⟩ | ⟨h1, h2⟩
      · omega
      · omega
      · omega
    obtain ⟨hhd, hprw⟩ := hhead
    have ht32 : toInt32 (skipLen q) = (s : Int) := toInt32_eq_of_lt hs31
    have hneg : negI32 (toInt32 (skipLen q)) = -(s : Int) := by
      rw [ht32]
      exact negI32_eq (by omega) (by omega)
    have hu64 : u64OfI32 (toInt32 (skipLen q)) = s := by
      rw [ht32]
      exact u64OfI32_nat hs31
    have heff : pushEffPtr q len = w + s := by
      unfold pushEffPtr
      rw [hskb]
      simp only [if_true]
      rw [hu64]
      exact wrap64_eq_of_lt (by omega)
    have hpos0 : (w + s) % cap = 0 := by
      rw [hsdef]
      exact pos_add_slack hcap0
    have hpos0' : pos q (w + s) = 0 := hpos0
    have hm1def : pushMem1 q len = writeMeta q.mem (w % cap) (-(s : Int)) := by
      unfold pushMem1
      rw [hskb]
      simp only [if_true]
      rw [hneg]
      rfl
    have hcost : frameCost cap w buf = s + 4 + len := by
      unfold frameCost
      rw [if_pos (by omega)]
    have hwrap : wrap64 (pushEffPtr q len + 4 + len) = w + frameCost cap w buf := by
      rw [heff, hcost, wrap64_eq_of_lt (by omega)]
      omega
    -- occupancy of the new state
    have hdvd : cap ∣ (w + s) := Nat.dvd_of_mod_eq_zero hpos0
    obtain ⟨M, hM⟩ := hdvd
    have hAdm : cap * (r / cap) + r % cap = r := Nat.div_add_mod r cap
    have hMA : r / cap < M := by
      have h3 : cap * (r / cap) < cap * M := by omega
      exact Nat.lt_of_mul_lt_mul_left h3
    have hM2 : M ≤ r / cap + 1 := by
      by_contra hcon
      have h2 : r / cap + 2 ≤ M := by omega
      have h3 : cap * (r / cap + 2) ≤ cap * M := Nat.mul_le_mul_left cap h2
      rw [Nat.mul_add] at h3
      omega
    have hM1 : M = r / cap + 1 := by omega
    have hcapM : cap * M = cap * (r / cap) + cap := by
      rw [hM1, Nat.mul_succ]
    have hocc' : w + (s + 4 + len) - r ≤ cap := by omega
    refine ⟨hwrap, ?_, ?_⟩
    · rw [heff, hpos0']
      omega
    · rw [hwrap, heff, hpos0', hm1def, Nat.zero_add]
      set m1 := writeMeta q.mem (w % cap) (-(s : Int)) with hm1
      set m3 := copyBytes (writeMeta m1 0 (toInt32 len)) 4 buf with hm3
      -- the new frame is a well-formed skip frame
      have hfr : frameAt m3 cap w buf := by
        unfold frameAt
        rw [if_pos (by omega)]
        refine ⟨?_, by omega, ?_, ?_⟩
        · have hagk : ∀ k, k < 4 → m3 (w % cap + k) = m1 (w % cap + k) := by
            intro k hk
            rw [hm3, copyBytes_eq_of_ge (by omega), writeMeta_eq_of_ge (by omega)]
          rw [readMeta_congr hagk]
          rw [hm1, readMeta_writeMeta]
          rw [wrapI32_eq (by omega) (by omega)]
        · have hagk : ∀ k, k < 4 → m3 (0 + k) = writeMeta m1 0 (toInt32 len) (0 + k) := by
            intro k hk
            rw [hm3, copyBytes_eq_of_lt (by omega)]
          rw [readMeta_congr hagk, readMeta_writeMeta, toInt32_eq_of_lt hlen31]
          rw [wrapI32_eq (by omega) (by omega)]
        · intro i hi
          rw [hm3]
          exact copyBytes_at hi
      -- the old frames are untouched
      have hag : ∀ x, chainBytes cap r ps x → m3 x = q.mem x := by
        intro x hx
        rcases chainBytes_cases hcap0 hch hx with hsh | ⟨a, ha1, ha2, ha3, ha4, ha5⟩
        · have hxcap : x < cap := inShadow_lt_cap hsh
          have hnew1 : ¬ x < 4 + len := by
            intro hcon
            exact inShadow_disjoint hcap0 hsh
              (show inShadow cap w (w + (s + 4 + len)) x from
                ⟨w + s, 4 + len, by omega, by omega, by rw [hpos0]; omega,
                  by rw [hpos0]; omega, by rw [hpos0]; omega⟩)
              (le_refl w) (by omega)
          have hnew2 : ¬ (w % cap ≤ x ∧ x < w % cap + 4) := by
            intro hcon
            exact inShadow_disjoint hcap0 hsh
              (show inShadow cap w (w + (s + 4 + len)) x from
                ⟨w, min s 4, le_refl w, by omega, by omega, by omega, by omega⟩)
              (le_refl w) (by omega)
          rcases (show x < w % cap ∨ w % cap + 4 ≤ x by omega) with h | h
          · rw [hm3, copyBytes_eq_of_ge (by omega), writeMeta_eq_of_ge (by omega),
              hm1, writeMeta_eq_of_lt h]
          · rw [hm3, copyBytes_eq_of_ge (by omega), writeMeta_eq_of_ge (by omega),
              hm1, writeMeta_eq_of_ge h]
        · -- pad byte of an old straddling skip header
          have haplt : a % cap < cap := Nat.mod_lt _ hcap0
          rw [hm3, copyBytes_eq_of_ge (by omega), writeMeta_eq_of_ge (by omega), hm1]
          by_cases hs4 : 4 ≤ s
          · rw [writeMeta_eq_of_ge (by omega)]
          · exfalso
            have hdvd2 : cap ∣ (a + (cap - a % cap)) :=
              Nat.dvd_of_mod_eq_zero (pos_add_slack hcap0)
            have hdvd3 : cap ∣ (w + s) - (a + (cap - a % cap)) :=
              Nat.dvd_sub' (Nat.dvd_of_mod_eq_zero hpos0) hdvd2
            have hD1 : 0 < (w + s) - (a + (cap - a % cap)) := by omega
            have hD2 : (w + s) - (a + (cap - a % cap)) < cap := by omega
            exact absurd (Nat.le_of_dvd hD1 hdvd3) (by omega)
      have hchain2 := chain_snoc (chain_congr hcap0 hch hag) hfr
      exact ⟨hcap0, hcap31, hml,
        by show r ≤ w + frameCost cap w buf; rw [hcost]; omega,
        by show w + frameCost cap w buf - r ≤ cap; rw [hcost]; omega,
        by show w + frameCost cap w buf < U64; rw [hcost]; omega,
        hchain2⟩
  · -- direct frame: the tail segment is large enough
    replace hsk : ¬ cap - w % cap < len + 4 := hsk
    have hskb : pushNeedsSkip q len = false := by
      unfold pushNeedsSkip
      simp only [decide_eq_false_iff_not]
      exact hsk
    have heff : pushEffPtr q len = w := by
      unfold pushEffPtr
      rw [hskb]
      simp
    have hm1def : pushMem1 q len = q.mem := by
      unfold pushMem1
      rw [hskb]
      simp
    have htail : w % cap + 4 + len ≤ cap := by omega
    have hcost : frameCost cap w buf = 4 + len := by
      unfold frameCost
      rw [if_neg (by omega)]
    have hwrap : wrap64 (pushEffPtr q len + 4 + len) = w + frameCost cap w buf := by
      rw [heff, hcost, wrap64_eq_of_lt (by omega)]
      omega
    refine ⟨hwrap, ?_, ?_⟩
    · rw [heff]
      show w % cap + 4 + len ≤ cap
      exact htail
    · rw [hwrap, heff, hm1def, show pos q w = w % cap from rfl]
      set m3 := copyBytes (writeMeta q.mem (w % cap) (toInt32 len)) (w % cap + 4) buf
        with hm3
      have hfr : frameAt m3 cap w buf := by
        unfold frameAt
        rw [if_neg (by omega)]
        constructor
        · have hagk : ∀ k, k < 4 → m3 (w % cap + k) =
              writeMeta q.mem (w % cap) (toInt32 len) (w % cap + k) := by
            intro k hk
            rw [hm3, copyBytes_eq_of_lt (by omega)]
          rw [readMeta_congr hagk, readMeta_writeMeta, toInt32_eq_of_lt hlen31,
            wrapI32_eq (by omega) (by omega)]
        · intro i hi
          rw [hm3]
          exact copyBytes_at hi
      have hag : ∀ x, chainBytes cap r ps x → m3 x = q.mem x := by
        intro x hx
        rcases chainBytes_cases hcap0 hch hx with hsh | ⟨a, ha1, ha2, ha3, ha4, ha5⟩
        · have hxcap : x < cap := inShadow_lt_cap hsh
          have hout : ¬ (w % cap ≤ x ∧ x < w % cap + 4 + len) := by
            intro hcon
            exact inShadow_disjoint hcap0 hsh
              (show inShadow cap w (w + (4 + len)) x from
                ⟨w, 4 + len, le_refl w, by omega, by omega, by omega, by omega⟩)
              (le_refl w) (by omega)
          rcases (show x < w % cap ∨ w % cap + 4 + len ≤ x by omega) with h | h
          · rw [hm3, copyBytes_eq_of_lt (by omega), writeMeta_eq_of_lt h]
          · rw [hm3, copyBytes_eq_of_ge (by omega), writeMeta_eq_of_ge (by omega)]
        · rw [hm3, copyBytes_eq_of_ge (by omega), writeMeta_eq_of_ge (by omega)]
      have hchain2 := chain_snoc (chain_congr hcap0 hch hag) hfr
      exact ⟨hcap0, hcap31, hml,
        by show r ≤ w + frameCost cap w buf; rw [hcost]; omega,
        by show w + frameCost cap w buf - r ≤ cap; rw [hcost]; omega,
        by show w + frameCost cap w buf < U64; rw [hcost]; omega,
        hchain2⟩

theorem Push_full_of_isFull {q : Queue} {buf : List Nat}
    (h : IsFull q buf.length = true) : Push q buf = .full := by
  unfold Push
  rw [h]
  simp

theorem Pop_empty_of_eq {q : Queue} {dst : List Nat}
    (h : q.readPtr = q.writePtr) : Pop q dst = .empty := by
  have he : IsEmpty q = true := by
    unfold IsEmpty
    simp [h]
  unfold Pop
  rw [he]
  simp

theorem applyOp_push_ok {q q' : Queue} {buf : List Nat}
    (h : Push q buf = .ok q') : applyOp q (.push buf) = q' := by
  simp [applyOp, h]

theorem applyOp_pop_ok {q q' : Queue} {out : List Nat}
    (h : Pop q [] = .ok q' out) : applyOp q .pop = q' := by
  simp [applyOp, h]

/-- One guarded call preserves the invariant (with the pending list updated)
and never moves a cursor backwards or changes the capacity fields. -/
theorem applyOp_inv {q : Queue} {ps : List (List Nat)} {op : Op}
    (hinv : Inv q ps) (hop : opOk q op) :
    ∃ ps', Inv (applyOp q op) ps' ∧
      q.readPtr ≤ (applyOp q op).readPtr ∧ q.writePtr ≤ (applyOp q op).writePtr ∧
      (applyOp q op).cap = q.cap ∧ (applyOp q op).memLen = q.memLen ∧
      (applyOp q op).memCap = q.memCap := by
  cases op with
  | push buf =>
    cases hfull : IsFull q buf.length with
    | true =>
      rw [applyOp_push_full (Push_full_of_isFull hfull)]
      exact ⟨ps, hinv, le_refl _, le_refl _, rfl, rfl, rfl⟩
    | false =>
      obtain ⟨hwrap, hbound, hinv'⟩ := push_char hinv hop hfull
      rw [applyOp_push_ok (Push_ok hfull)]
      refine ⟨ps ++ [buf], hinv', le_refl _, ?_, rfl, rfl, rfl⟩
      show q.writePtr ≤ wrap64 (pushEffPtr q buf.length + 4 + buf.length)
      rw [hwrap]
      exact Nat.le_add_right _ _
  | pop =>
    cases ps with
    | nil =>
      have hr : q.readPtr = q.writePtr := hinv.hch
      rw [applyOp_pop_empty (Pop_empty_of_eq hr)]
      exact ⟨[], hinv, le_refl _, le_refl _, rfl, rfl, rfl⟩
    | cons p t =>
      obtain ⟨hPop, _, _, hinv'⟩ := pop_char hinv []
      rw [applyOp_pop_ok hPop]
      exact ⟨t, hinv', Nat.le_add_right _ _, le_refl _, rfl, rfl, rfl⟩

/-- Running any guarded call sequence from an invariant state lands in an
invariant state with the same capacity fields. -/
theorem runOps_inv :
    ∀ (ops : List Op) (q : Queue) (ps : List (List Nat)),
    Inv q ps → okRun q ops →
    ∃ ps', Inv (runOps q ops) ps' ∧ (runOps q ops).cap = q.cap ∧
      (runOps q ops).memLen = q.memLen ∧ (runOps q ops).memCap = q.memCap
  | [], _, ps, hinv, _ => ⟨ps, hinv, rfl, rfl, rfl⟩
  | op :: rest, q, ps, hinv, hok => by
    obtain ⟨hop, hrest⟩ := hok
    obtain ⟨ps', hinv', _, _, hc, hml, hmc⟩ := applyOp_inv hinv hop
    have hstep : runOps q (op :: rest) = runOps (applyOp q op) rest := rfl
    rw [hstep]
    obtain ⟨ps2, h2, e1, e2, e3⟩ := runOps_inv rest (applyOp q op) ps' hinv' hrest
    exact ⟨ps2, h2, by rw [e1, hc], by rw [e2, hml], by rw [e3, hmc]⟩

/-- A capacity-0 queue reports full for every payload a Go slice can hold. -/
theorem isFull_zero_cap {n : Nat} (hb : n + 4 < U64) : IsFull (NewQueue 0) n = true := by
  unfold IsFull
  have h0 : (NewQueue 0).writePtr = 0 := rfl
  have h1 : (NewQueue 0).readPtr = 0 := rfl
  have h2 : (NewQueue 0).memLen = 0 := rfl
  rw [h0, h1, h2,
    sub64_first_check (by omega) (by rw [U64_eq]; omega) (by omega)]
  rw [if_pos (by omega)]

/-- A guarded call on a capacity-0 queue is a no-op. -/
theorem applyOp_zero (op : Op) (hop : opOk (NewQueue 0) op) :
    applyOp (NewQueue 0) op = NewQueue 0 := by
  cases op with
  | push buf =>
    refine applyOp_push_full (Push_full_of_isFull ?_)
    replace hop : (NewQueue 0).writePtr + (NewQueue 0).cap + 4 + buf.length <
      U64 := hop
    have hb : buf.length + 4 < U64 := by
      simp only [NewQueue] at hop
      omega
    exact isFull_zero_cap hb
  | pop => exact applyOp_pop_empty (Pop_empty_of_eq rfl)

/-- A capacity-0 queue never changes under guarded calls. -/
theorem runOps_zero :
    ∀ (ops : List Op), okRun (NewQueue 0) ops → runOps (NewQueue 0) ops = NewQueue 0
  | [], _ => rfl
  | op :: rest, hok => by
    obtain ⟨hop, hrest⟩ := hok
    have happ := applyOp_zero op hop
    have hstep : runOps (NewQueue 0) (op :: rest) =
        runOps (applyOp (NewQueue 0) op) rest := rfl
    rw [hstep, happ]
    exact runOps_zero rest (by rw [happ] at hrest; exact hrest)

/-- The invariant holds at a fresh queue of positive capacity. -/
theorem inv_newQueue {c : Nat} (hc0 : 0 < c) (hc31 : c < 2 ^ 31) :
    Inv (NewQueue c) [] :=
  ⟨hc0, hc31, rfl, le_refl 0, by show (0 : Nat) - 0 ≤ c; omega,
    by show (0 : Nat) < U64; rw [U64_eq]; omega, rfl⟩

/-- In an invariant state, every byte access of a proceeding `Pop` or of an
admitted `Push` stays in bounds. -/
theorem inv_access_bounds {q : Queue} {ps : List (List Nat)} (hinv : Inv q ps) :
    (q.readPtr ≠ q.writePtr →
      pos q q.readPtr ≤ q.cap - 1 ∧ pos q (popFrameStart q) ≤ q.cap - 1 ∧
      pos q (popDataPtr q) + popDataSize q ≤ q.cap) ∧
    (∀ buf, opOk q (.push buf) → IsFull q buf.length = false →
      pos q q.writePtr ≤ q.cap - 1 ∧ pos q (pushEffPtr q buf.length) ≤ q.cap - 1 ∧
      pos q (pushEffPtr q buf.length) + 4 + buf.length ≤ q.cap) := by
  have hcap0 := hinv.hcap0
  constructor
  · intro hne
    cases ps with
    | nil => exact absurd hinv.hch hne
    | cons p t =>
      obtain ⟨_, hbound, _, _⟩ := pop_char hinv []
      refine ⟨?_, ?_, hbound⟩
      · have := pos_lt hcap0 q.readPtr
        omega
      · have := pos_lt hcap0 (popFrameStart q)
        omega
  · intro buf hop hfull
    obtain ⟨_, hbound, _⟩ := push_char hinv hop hfull
    refine ⟨?_, ?_, hbound⟩
    · have := pos_lt hcap0 q.writePtr
      omega
    · have := pos_lt hcap0 (pushEffPtr q buf.length)
      omega

/-- Witness for claim C8: concrete instantiation at payload length 5 and
payload `[1, 2]`. -/
theorem C8_capacity_zero_witness :
    IsFull (NewQueue 0) 5 = true ∧
      ¬isFullTakesModPath (NewQueue 0) 5 ∧
      Push (NewQueue 0) [1, 2] = .full ∧
      applyOp (NewQueue 0) (.push [1, 2]) = NewQueue 0 ∧
      IsEmpty (NewQueue 0) = true ∧
      Pop (NewQueue 0) [] = .empty ∧
      applyOp (NewQueue 0) .pop = NewQueue 0 :=
  C8_capacity_zero 5 [1, 2] [] (by rw [U64_eq]; norm_num) (by rw [U64_eq]; norm_num)

end RingBuffer
